import Mathlib

/-!
Shallow embedding of `src/main.rs` of the wikigraph repository, together with
theorems checking the natural-language specification against it.

The program is a four-thread pipeline: an XML-decoding thread (`xml_thread`)
turns a (bz2-decompressed) byte stream into page records via a flag-based
extraction loop, a regex thread (`regex_thread`) turns each page's text into
`[[link]]` edges, and a sqlite thread (`sqlite_thread`) persists the edges.
A progress thread watches the two bounded channels.  Each component is
embedded below as a pure function over explicit event/message lists, and the
channel/thread lifecycle is embedded as a small transition system.
-/

namespace Wikigraph

/-! ### Events of the XML reader (quick_xml `Event` as consumed by `xml_thread`)

`start name` is `Event::Start` carrying the element name; `text c` is
`Event::Text` carrying the raw content; `close` is `Event::End(_)` (the code
ignores which element is closed); `err` is the `Err(_)` result of
`read_event_into` (the code panics there); `eof` is `Event::Eof`; `other`
stands for every remaining event kind, all of which fall into the code's
wildcard arm. -/
inductive XmlEvent where
  | start (name : String)
  | text (content : String)
  | close
  | err
  | eof
  | other
deriving DecidableEq, Repr

/-- Mutable state of the extraction loop in `xml_thread`: the two flags
`in_title` / `in_text` and the `title : Option<String>` variable
(main.rs lines 84-87). -/
structure XmlState where
  in_title : Bool
  in_text : Bool
  title : Option String
deriving DecidableEq, Repr

/-- Observable output of one loop iteration: a `(title, text)` record sent on
`regex_tx`, or the "In text without title" diagnostic printed by the
`None` arm (main.rs lines 109-114). -/
inductive XmlOut where
  | page (title text : String)
  | diag
deriving DecidableEq, Repr

/-- The initial state of the loop: both flags false, no title captured
(main.rs lines 85-87). -/
def initState : XmlState := ⟨false, false, none⟩

/-- One iteration of the `match` in `xml_thread` (main.rs lines 90-122) on a
non-`Eof`, non-`Err` event.  `unesc` stands for quick_xml's
`BytesText::unescape`; the embedding is parametric in it.  Arm order follows
the source: the `in_title` guard on `Text` is tried before the `in_text`
guard, `End(_)` clears both flags, everything else is the wildcard arm. -/
def xmlStep (unesc : String → String) (s : XmlState) (e : XmlEvent) :
    XmlState × List XmlOut :=
  match e with
  | .start n =>
      if n = "title" then ({ s with in_title := true }, [])
      else if n = "text" then ({ s with in_text := true }, [])
      else (s, [])
  | .text c =>
      if s.in_title then ({ s with title := some (unesc c) }, [])
      else if s.in_text then
        match s.title with
        | some t => (s, [XmlOut.page t (unesc c)])
        | none => (s, [XmlOut.diag])
      else (s, [])
  | .close => ({ s with in_title := false, in_text := false }, [])
  | .eof => (s, [])
  | .err => (s, [])
  | .other => (s, [])

/-- The extraction loop of `xml_thread` (main.rs lines 89-124) over a list of
reader events: `Err(_)` panics (modelled as `Except.error`), `Eof` breaks out
of the loop, every other event is handled by `xmlStep`. -/
def xmlRun (unesc : String → String) :
    XmlState → List XmlEvent → Except Unit (List XmlOut)
  | _, [] => .ok []
  | _, .eof :: _ => .ok []
  | _, .err :: _ => .error ()
  | s, e :: es =>
      (xmlRun unesc (xmlStep unesc s e).1 es).map
        fun rest => (xmlStep unesc s e).2 ++ rest

/-- The whole `xml_thread` extraction, started from the initial state. -/
def xml_thread (unesc : String → String) (evs : List XmlEvent) :
    Except Unit (List XmlOut) :=
  xmlRun unesc initState evs

/-- The canonical event run of one well-formed `title`/`text` element pair:
open title, its text content, close, open text, its content, close. -/
def pairEvents (t x : String) : List XmlEvent :=
  [.start "title", .text t, .close, .start "text", .text x, .close]

/-- Events that the loop treats as no-ops from a flags-cleared state: the
wildcard arm, `End(_)` (the flags are already false), and `Start` of any
element other than `title` and `text`. -/
def Neutral (e : XmlEvent) : Prop :=
  e = .other ∨ e = .close ∨ ∃ n, n ≠ "title" ∧ n ≠ "text" ∧ e = .start n

/-! ### Link extraction (`regex_thread`, main.rs lines 129-144)

The thread compiles the regex

  `(?:\[\[)([^\[\]]+?)(?:\|[^\[\]]*)?(?:\]\])`

and for each received `(title, text)` sends one `(title, capture[1])` edge
per non-overlapping leftmost match found by `captures_iter` over `text`.
The rust regex crate uses leftmost-first (backtracking-equivalent) match
semantics, which for this pattern evaluate to the following scanner: a match
starts at a literal `[[`; the characters between the brackets are constrained
by `[^\[\]]` to the maximal bracket-free run following the `[[`; the match
succeeds exactly when that run is nonempty and is immediately followed by
`]]`; the lazy group `([^\[\]]+?)` captures up to (excluding) the first `|`
at index ≥ 1 of the run — the optional greedy `(?:\|[^\[\]]*)?` then absorbs
the remainder of the run — or the whole run when no such `|` exists.
`captures_iter` resumes after the end of each match and advances one
character past positions where no match starts. -/

/-- Character class of the two characters excluded by `[^\[\]]`. -/
def isBracket (c : Char) : Bool := c == '[' || c == ']'

/-- Characters admissible inside a link token (the `[^\[\]]` class). -/
def nonBracket (c : Char) : Bool := !(isBracket c)

/-- The capture of group 1 out of the bracket-free run between `[[` and `]]`:
the lazy `([^\[\]]+?)` stops right before the first `|` that leaves it
nonempty, i.e. the first `|` at index ≥ 1, and otherwise takes the whole
run. -/
def targetOf : List Char → List Char
  | [] => []
  | c :: cs => c :: cs.takeWhile fun d => d != '|'

/-- Fuel-indexed scanner implementing `captures_iter` of the link regex.
Each recursive call consumes at least one character, so `fuel = s.length`
suffices (`scanLinks` below); the fuel only makes the recursion structural. -/
def scanLinksAux : Nat → List Char → List (List Char)
  | 0, _ => []
  | _ + 1, [] => []
  | _ + 1, [_] => []
  | fuel + 1, c1 :: c2 :: rest =>
    if c1 = '[' ∧ c2 = '[' then
      let run := rest.takeWhile nonBracket
      let rest' := rest.dropWhile nonBracket
      if run ≠ [] ∧ rest'.take 2 = [']', ']'] then
        targetOf run :: scanLinksAux fuel (rest'.drop 2)
      else
        scanLinksAux fuel (c2 :: rest)
    else
      scanLinksAux fuel (c2 :: rest)

/-- The list of group-1 captures of the link regex over a character list, in
left-to-right (non-overlapping, leftmost) order. -/
def scanLinks (s : List Char) : List (List Char) := scanLinksAux s.length s

/-- The link targets extracted from a page text, as strings. -/
def extractLinks (text : String) : List String :=
  (scanLinks text.data).map fun cs => String.mk cs

/-- The `regex_thread` body: one `(title, target)` edge per regex capture of
each received page, pages in arrival order and captures in match order
(main.rs lines 135-141). -/
def regex_thread (pages : List (String × String)) : List (String × String) :=
  pages.flatMap fun p => (extractLinks p.2).map fun tgt => (p.1, tgt)

/-! ### Spec-side description of link occurrences

The following definitions follow the words of the specification, not the
source, and exist to be compared with the scanner above: "Pattern:
`[[target]]` or `[[target|display]]`; `target` is any run of characters
excluding the bracket characters; `display`, if present, is discarded", and
"one edge per non-overlapping occurrence of `[[X]]` or `[[X|Y]]`, with target
exactly `X`, in left-to-right order". -/

/-- Modelled from the spec: `body` is the bracket-interior of an occurrence
of `[[X]]` or `[[X|Y]]` whose target is `X`: either the whole interior is the
(nonempty, bracket-free) target, or it splits as target, pipe, display. -/
def IsLinkOcc (X body : List Char) : Prop :=
  (X ≠ [] ∧ (∀ c ∈ X, c ≠ '[' ∧ c ≠ ']') ∧ body = X) ∨
  (∃ Y, X ≠ [] ∧ (∀ c ∈ X, c ≠ '[' ∧ c ≠ ']') ∧ (∀ c ∈ Y, c ≠ '[' ∧ c ≠ ']') ∧
    body = X ++ '|' :: Y)

/-- Modelled from the spec: an occurrence of `[[X]]` or `[[X|Y]]` begins at
the head of `s`. -/
def OccAt0 (s : List Char) : Prop :=
  ∃ X body rest, IsLinkOcc X body ∧ s = '[' :: '[' :: (body ++ ']' :: ']' :: rest)

/-- Modelled from the spec: `LinksSpec s L` holds when `L` is a list of
targets obtained by walking `s` left to right, emitting the target of an
occurrence and resuming after it, and stepping over a character only when no
occurrence starts there (so occurrences are non-overlapping, taken leftmost,
and none is missed). -/
inductive LinksSpec : List Char → List (List Char) → Prop where
  | nil : LinksSpec [] []
  | skip (c : Char) (s : List Char) (L : List (List Char)) :
      ¬ OccAt0 (c :: s) → LinksSpec s L → LinksSpec (c :: s) L
  | occ (X body rest : List Char) (L : List (List Char)) :
      IsLinkOcc X body → LinksSpec rest L →
      LinksSpec ('[' :: '[' :: (body ++ ']' :: ']' :: rest)) (X :: L)

/-! ### Byte-stream source selection (`xml_thread`, main.rs lines 74-82) -/

/-- The three byte-stream variants named by the specification. -/
inductive ByteSource where
  | raw
  | singleBz2
  | multistreamBz2
deriving DecidableEq, Repr

/-- From the source: `xml_thread` opens the file and unconditionally wraps it
in `bzip2::read::MultiBzDecoder` (main.rs lines 79-80); the only alternative
(`quick_xml::Reader::from_file` for plain `*.xml`) is commented out.  The
file name plays no role in the choice. -/
def byteSource (fileName : String) : ByteSource :=
  let _ := fileName
  ByteSource.multistreamBz2

/-- Modelled from the spec: "File-name classification rule (case-insensitive):
suffix `multistream.xml.bz2` → multi-stream compressed; suffix `.xml.bz2` →
single-stream compressed; otherwise → raw markup." -/
def classifySpec (fileName : String) : ByteSource :=
  let lower := fileName.data.map Char.toLower
  if ("multistream.xml.bz2".data).isSuffixOf lower then ByteSource.multistreamBz2
  else if (".xml.bz2".data).isSuffixOf lower then ByteSource.singleBz2
  else ByteSource.raw

/-! ### Graph store sink (`sqlite_thread`, main.rs lines 146-193) -/

/-- The statements `sqlite_thread` executes, in the order it executes them:
`CREATE TABLE IF NOT EXISTS vertices(...)`, one
`INSERT INTO vertices VALUES(?, ?)` per received edge,
`CREATE INDEX IF NOT EXISTS index_vertices ON vertices(source, target)`, and
the `backup` of the in-memory database to the destination file. -/
inductive DbOp where
  | createTable
  | insertRow (source target : String)
  | createIndex
  | backup
deriving DecidableEq, Repr

/-- Schema of the `vertices` table: column names with their NOT NULL flags,
as declared in the `CREATE TABLE` statement (main.rs lines 155-158). -/
def verticesSchema : List (String × Bool) := [("source", true), ("target", true)]

/-- The operation trace of `sqlite_thread` on the finite edge stream it
receives: create the table, insert each edge in arrival order, and only after
the stream is exhausted create the index and copy the store to disk. -/
def sqliteTrace (edges : List (String × String)) : List DbOp :=
  DbOp.createTable ::
    ((edges.map fun e => DbOp.insertRow e.1 e.2) ++ [DbOp.createIndex, DbOp.backup])

/-- Abstract state of the store: whether the table exists and with which
schema, the rows in insertion order, and whether the index has been built and
the staging (in-memory) store copied to the destination. -/
structure Db where
  schema : Option (List (String × Bool))
  rows : List (String × String)
  indexBuilt : Bool
  backedUp : Bool
deriving DecidableEq, Repr

/-- The store before `sqlite_thread` runs. -/
def initDb : Db := ⟨none, [], false, false⟩

/-- Effect of one statement on the abstract store. -/
def applyOp (db : Db) (op : DbOp) : Db :=
  match op with
  | .createTable => { db with schema := some verticesSchema }
  | .insertRow s t => { db with rows := db.rows ++ [(s, t)] }
  | .createIndex => { db with indexBuilt := true }
  | .backup => { db with backedUp := true }

/-- Effect of a statement sequence on the abstract store. -/
def runOps (db : Db) (ops : List DbOp) : Db := ops.foldl applyOp db

/-- The store `sqlite_thread` leaves behind for a finite edge stream. -/
def sqlite_thread (edges : List (String × String)) : Db :=
  runOps initDb (sqliteTrace edges)

/-! ### Thread and channel lifecycle (`main`, main.rs lines 27-44)

`main` creates two bounded channels and spawns the four workers inside
`thread::scope`, which returns only after every spawned thread has returned.
Ownership of the channel endpoints, read off the source:

* regex-channel senders: the original `regex_tx` owned by `main`'s frame
  (alive until `thread::scope` returns), a clone held by `xml_thread`, and a
  clone held by `progress_thread`;
* regex-channel receivers: the original `regex_rx` owned by `main`'s frame,
  and a clone held by `regex_thread`;
* sqlite-channel senders: the original `sqlite_tx` owned by `main`'s frame,
  a clone held by `regex_thread`, and a clone held by `progress_thread`;
* sqlite-channel receivers: only the moved `sqlite_rx` held by
  `sqlite_thread`.

A flume receiver's `for` loop ends when the channel is drained and every
sender is dropped; `Sender::is_disconnected` is true when every receiver is
dropped.  A thread drops its endpoints when it returns. -/

/-- The four worker threads plus the enclosing `thread::scope` of `main`. -/
inductive Proc where
  | xml
  | regex
  | sqlite
  | progress
  | scope
deriving DecidableEq, Repr

/-- `Exits p` holds when, on a finite input, `p` can ever terminate.  Each
constructor records exactly whose termination must come first, per the
endpoint ownership above: `xml_thread` exits at `Eof` unconditionally;
`regex_thread` exits once every regex-channel sender is dropped (by `xml`,
`progress`, and the scope); `sqlite_thread` exits once every sqlite-channel
sender is dropped (by `regex`, `progress`, and the scope); `progress_thread`
exits when the regex channel loses all receivers (dropped by `regex` and the
scope) or the sqlite channel loses its receiver (dropped by `sqlite`); the
scope returns when all four threads have returned. -/
inductive Exits : Proc → Prop where
  | xml : Exits .xml
  | regex : Exits .xml → Exits .progress → Exits .scope → Exits .regex
  | sqlite : Exits .regex → Exits .progress → Exits .scope → Exits .sqlite
  | progressRegexSide : Exits .regex → Exits .scope → Exits .progress
  | progressSqliteSide : Exits .sqlite → Exits .progress
  | scope : Exits .xml → Exits .regex → Exits .sqlite → Exits .progress →
      Exits .scope

/-! ### Bounded hand-off queues (`main`, main.rs lines 30-31) -/

/-- Capacity of the page hand-off channel: `flume::bounded(512)`. -/
def regexQueueBound : Nat := 512

/-- Capacity of the edge hand-off channel: `flume::bounded(512)`. -/
def sqliteQueueBound : Nat := 512

/-- Transitions of a flume bounded channel of capacity `cap`, contents listed
oldest first: a send succeeds only while the queue holds fewer than `cap`
items (otherwise the producer blocks, so no transition exists), and a receive
removes the oldest item. -/
inductive QueueStep (α : Type) (cap : Nat) : List α → List α → Prop where
  | send (q : List α) (x : α) : q.length < cap → QueueStep α cap q (q ++ [x])
  | recv (x : α) (q : List α) : QueueStep α cap (x :: q) q

/-- Queue contents reachable from the empty channel. -/
inductive QueueReachable (α : Type) (cap : Nat) : List α → Prop where
  | init : QueueReachable α cap []
  | step {q q' : List α} : QueueReachable α cap q → QueueStep α cap q q' →
      QueueReachable α cap q'

/-! ## Helper lemmas -/

theorem length_dropWhile_le (p : Char → Bool) (l : List Char) :
    (l.dropWhile p).length ≤ l.length := by
  induction l with
  | nil => simp
  | cons a l ih =>
    rw [List.dropWhile_cons]
    split
    · exact Nat.le_succ_of_le ih
    · simp

theorem takeWhile_append_of_forall {p : Char → Bool} {l₁ : List Char}
    (l₂ : List Char) (h : ∀ c ∈ l₁, p c = true) :
    (l₁ ++ l₂).takeWhile p = l₁ ++ l₂.takeWhile p := by
  induction l₁ with
  | nil => simp
  | cons a l ih =>
    rw [List.cons_append, List.takeWhile_cons, if_pos (h a (by simp))]
    rw [ih fun c hc => h c (by simp [hc]), List.cons_append]

theorem dropWhile_append_of_forall {p : Char → Bool} {l₁ : List Char}
    (l₂ : List Char) (h : ∀ c ∈ l₁, p c = true) :
    (l₁ ++ l₂).dropWhile p = l₂.dropWhile p := by
  induction l₁ with
  | nil => simp
  | cons a l ih =>
    rw [List.cons_append, List.dropWhile_cons, if_pos (h a (by simp))]
    exact ih fun c hc => h c (by simp [hc])

theorem dropWhile_head_eq_false {p : Char → Bool} :
    ∀ {l : List Char} {d : Char} {ds : List Char},
      l.dropWhile p = d :: ds → p d = false := by
  intro l
  induction l with
  | nil => intro d ds h; simp at h
  | cons a t ih =>
    intro d ds h
    rw [List.dropWhile_cons] at h
    by_cases hpa : p a
    · rw [if_pos hpa] at h; exact ih h
    · rw [if_neg hpa] at h
      obtain ⟨rfl, -⟩ := List.cons.injEq .. ▸ h
      exact Bool.not_eq_true _ ▸ hpa

theorem take_two_eq {l : List Char} {a b : Char} (h : l.take 2 = [a, b]) :
    ∃ t, l = a :: b :: t := by
  match l with
  | [] => simp at h
  | [x] => simp at h
  | x :: y :: t =>
    simp only [List.take_succ_cons, List.take_zero, List.cons.injEq, and_true] at h
    exact ⟨t, by rw [h.1, h.2]⟩

theorem nonBracket_iff {c : Char} : nonBracket c = true ↔ c ≠ '[' ∧ c ≠ ']' := by
  simp [nonBracket, isBracket, not_or]

/-- An occurrence at the head forces the shape of the string: two open
brackets, a nonempty bracket-free interior, two close brackets. -/
theorem occAt0_shape {s : List Char} (h : OccAt0 s) :
    ∃ body rest, s = '[' :: '[' :: (body ++ ']' :: ']' :: rest) ∧ body ≠ [] ∧
      ∀ c ∈ body, nonBracket c = true := by
  obtain ⟨X, body, rest, hocc, hs⟩ := h
  refine ⟨body, rest, hs, ?_, ?_⟩
  · rcases hocc with ⟨hX, -, rfl⟩ | ⟨Y, hX, -, -, rfl⟩
    · exact hX
    · cases X with
      | nil => exact absurd rfl hX
      | cons x xs => simp
  · rcases hocc with ⟨-, hfree, rfl⟩ | ⟨Y, -, hfree, hfreeY, rfl⟩
    · exact fun c hc => nonBracket_iff.mpr (hfree c hc)
    · intro c hc
      rcases List.mem_append.mp hc with hc | hc
      · exact nonBracket_iff.mpr (hfree c hc)
      · rcases List.mem_cons.mp hc with rfl | hc
        · rfl
        · exact nonBracket_iff.mpr (hfreeY c hc)

/-- The capture computed by the lazy group is the target of a genuine
occurrence whose interior is the whole bracket-free run. -/
theorem isLinkOcc_targetOf {run : List Char} (hne : run ≠ [])
    (hfree : ∀ c ∈ run, nonBracket c = true) : IsLinkOcc (targetOf run) run := by
  match run, hne with
  | c :: cs, _ =>
    have hsplit : (cs.takeWhile fun d => d != '|') ++ (cs.dropWhile fun d => d != '|') = cs :=
      List.takeWhile_append_dropWhile ..
    have hmem : ∀ x ∈ (cs.takeWhile fun d => d != '|'), x ∈ c :: cs := by
      intro x hx
      exact List.mem_cons_of_mem c (hsplit ▸ List.mem_append_left _ hx)
    cases hdrop : cs.dropWhile fun d => d != '|' with
    | nil =>
      left
      have htake : (cs.takeWhile fun d => d != '|') = cs := by
        conv_rhs => rw [← hsplit]
        rw [hdrop, List.append_nil]
      refine ⟨by simp [targetOf], ?_, ?_⟩
      · intro x hx
        exact nonBracket_iff.mp (hfree x (by simpa [targetOf, htake] using hx))
      · simp [targetOf, htake]
    | cons d ds =>
      right
      have hd : d = '|' := by
        have := dropWhile_head_eq_false (p := fun d => d != '|') hdrop
        simpa using this
      refine ⟨ds, by simp [targetOf], ?_, ?_, ?_⟩
      · intro x hx
        simp only [targetOf, List.mem_cons] at hx
        rcases hx with rfl | hx
        · exact nonBracket_iff.mp (hfree x (by simp))
        · exact nonBracket_iff.mp (hfree x (hmem x hx))
      · intro x hx
        have : x ∈ c :: cs := by
          refine List.mem_cons_of_mem c (hsplit ▸ List.mem_append_right _ ?_)
          rw [hdrop]
          exact List.mem_cons_of_mem d hx
        exact nonBracket_iff.mp (hfree x this)
      · have : cs = (cs.takeWhile fun d => d != '|') ++ '|' :: ds := by
          conv_lhs => rw [← hsplit]
          rw [hdrop, hd]
        simp [targetOf, List.cons_append]
        conv_lhs => rw [this]

/-- Enough fuel makes the scanner's result independent of the fuel. -/
theorem scanLinksAux_fuel :
    ∀ (f g : Nat) (s : List Char), s.length ≤ f → s.length ≤ g →
      scanLinksAux f s = scanLinksAux g s := by
  intro f
  induction f with
  | zero =>
    intro g s h1 _
    have hs : s = [] := List.length_eq_zero.mp (Nat.le_zero.mp h1)
    subst hs
    cases g <;> rfl
  | succ f ih =>
    intro g s h1 h2
    match s with
    | [] => cases g <;> rfl
    | [c] =>
      match g, h2 with
      | g' + 1, _ => rfl
    | c1 :: c2 :: rest =>
      match g, h2 with
      | g' + 1, h2 =>
        simp only [List.length_cons] at h1 h2
        simp only [scanLinksAux]
        have hdw := length_dropWhile_le nonBracket rest
        have hdr := List.length_drop 2 (rest.dropWhile nonBracket)
        by_cases hb : c1 = '[' ∧ c2 = '['
        · rw [if_pos hb, if_pos hb]
          by_cases hok : rest.takeWhile nonBracket ≠ [] ∧
              (rest.dropWhile nonBracket).take 2 = [']', ']']
          · rw [if_pos hok, if_pos hok]
            congr 1
            exact ih g' _ (by omega) (by omega)
          · rw [if_neg hok, if_neg hok]
            exact ih g' _ (by simp; omega) (by simp; omega)
        · rw [if_neg hb, if_neg hb]
          exact ih g' _ (by simp; omega) (by simp; omega)

/-- One-step unfolding of the scanner on a string of length at least two. -/
theorem scanLinks_cons₂ (c1 c2 : Char) (rest : List Char) :
    scanLinks (c1 :: c2 :: rest) =
      if c1 = '[' ∧ c2 = '[' then
        if rest.takeWhile nonBracket ≠ [] ∧
            (rest.dropWhile nonBracket).take 2 = [']', ']'] then
          targetOf (rest.takeWhile nonBracket) ::
            scanLinks ((rest.dropWhile nonBracket).drop 2)
        else scanLinks (c2 :: rest)
      else scanLinks (c2 :: rest) := by
  show scanLinksAux (rest.length + 1 + 1) (c1 :: c2 :: rest) = _
  simp only [scanLinksAux]
  have hdw := length_dropWhile_le nonBracket rest
  have hdr := List.length_drop 2 (rest.dropWhile nonBracket)
  by_cases hb : c1 = '[' ∧ c2 = '['
  · rw [if_pos hb, if_pos hb]
    by_cases hok : rest.takeWhile nonBracket ≠ [] ∧
        (rest.dropWhile nonBracket).take 2 = [']', ']']
    · rw [if_pos hok, if_pos hok]
      congr 1
      exact scanLinksAux_fuel _ _ _ (by omega) (le_refl _)
    · rw [if_neg hok, if_neg hok]
      rfl
  · rw [if_neg hb, if_neg hb]
    rfl

/-- Auxiliary induction (on a length bound) for `linksSpec_scanLinks`. -/
theorem linksSpec_scanLinks_aux :
    ∀ (n : Nat) (s : List Char), s.length ≤ n → LinksSpec s (scanLinks s) := by
  intro n
  induction n with
  | zero =>
    intro s h
    have hs : s = [] := List.length_eq_zero.mp (Nat.le_zero.mp h)
    subst hs
    exact LinksSpec.nil
  | succ n ih =>
    intro s h
    match s with
    | [] => exact LinksSpec.nil
    | [c] =>
      refine LinksSpec.skip c [] [] ?_ LinksSpec.nil
      intro hocc
      obtain ⟨body, rest, hshape, -, -⟩ := occAt0_shape hocc
      simp at hshape
    | c1 :: c2 :: rest =>
      simp only [List.length_cons] at h
      rw [scanLinks_cons₂]
      by_cases hb : c1 = '[' ∧ c2 = '['
      · obtain ⟨rfl, rfl⟩ := hb
        rw [if_pos ⟨rfl, rfl⟩]
        by_cases hok : rest.takeWhile nonBracket ≠ [] ∧
            (rest.dropWhile nonBracket).take 2 = [']', ']']
        · rw [if_pos hok]
          obtain ⟨hne, htake⟩ := hok
          obtain ⟨r2, hr2⟩ := take_two_eq htake
          have hdlen : (rest.dropWhile nonBracket).length = r2.length + 2 := by
            rw [hr2]; simp
          have hdw := length_dropWhile_le nonBracket rest
          have hdrop2 : (rest.dropWhile nonBracket).drop 2 = r2 := by
            rw [hr2]
            rfl
          rw [hdrop2]
          have hrec : LinksSpec r2 (scanLinks r2) := ih r2 (by omega)
          have hApp : rest.takeWhile nonBracket ++ ']' :: ']' :: r2 = rest := by
            conv_rhs => rw [← List.takeWhile_append_dropWhile nonBracket rest]
            rw [hr2]
          have hocc2 := LinksSpec.occ (targetOf (rest.takeWhile nonBracket))
            (rest.takeWhile nonBracket) r2 (scanLinks r2)
            (isLinkOcc_targetOf hne fun c hc => List.mem_takeWhile_imp hc) hrec
          rw [hApp] at hocc2
          exact hocc2
        · rw [if_neg hok]
          refine LinksSpec.skip '[' ('[' :: rest) _ ?_ (ih ('[' :: rest) (by simp; omega))
          intro hocc
          obtain ⟨body, r0, hshape, hbne, hbfree⟩ := occAt0_shape hocc
          simp only [List.cons.injEq, true_and] at hshape
          apply hok
          constructor
          · rw [hshape, takeWhile_append_of_forall _ hbfree]
            have hnb : nonBracket ']' = false := rfl
            rw [List.takeWhile_cons, hnb]
            simp [hbne]
          · rw [hshape, dropWhile_append_of_forall _ hbfree]
            have hnb : nonBracket ']' = false := rfl
            rw [List.dropWhile_cons, hnb]
            simp
      · rw [if_neg hb]
        refine LinksSpec.skip c1 (c2 :: rest) _ ?_ (ih (c2 :: rest) (by simp; omega))
        intro hocc
        obtain ⟨body, r0, hshape, -, -⟩ := occAt0_shape hocc
        simp only [List.cons.injEq] at hshape
        exact hb ⟨hshape.1, hshape.2.1⟩

/-- The scanner's output is a valid spec-side decomposition of the input. -/
theorem linksSpec_scanLinks (s : List Char) : LinksSpec s (scanLinks s) :=
  linksSpec_scanLinks_aux s.length s (le_refl _)

/-- Unfolding of the extraction loop on any event the loop actually handles
(neither `Eof` nor a reader error). -/
theorem xmlRun_cons_step (unesc : String → String) (s : XmlState) (e : XmlEvent)
    (es : List XmlEvent) (he1 : e ≠ .eof) (he2 : e ≠ .err) :
    xmlRun unesc s (e :: es) =
      (xmlRun unesc (xmlStep unesc s e).1 es).map
        fun rest => (xmlStep unesc s e).2 ++ rest := by
  cases e
  case eof => exact absurd rfl he1
  case err => exact absurd rfl he2
  all_goals rfl

theorem map_nil_append (v : Except Unit (List XmlOut)) :
    v.map (fun rest => ([] : List XmlOut) ++ rest) = v := by
  cases v <;> rfl

/-- A neutral event leaves a flags-cleared state unchanged and emits
nothing. -/
theorem xmlStep_neutral (unesc : String → String) {e : XmlEvent}
    (he : Neutral e) (t0 : Option String) :
    xmlStep unesc ⟨false, false, t0⟩ e = (⟨false, false, t0⟩, []) := by
  rcases he with rfl | rfl | ⟨n, hn1, hn2, rfl⟩
  · rfl
  · rfl
  · simp [xmlStep, hn1, hn2]

/-- Neutral events are transparent to the extraction loop from a
flags-cleared state. -/
theorem xmlRun_neutral (unesc : String → String) (blk : List XmlEvent)
    (h : ∀ e ∈ blk, Neutral e) (t0 : Option String) (rest : List XmlEvent) :
    xmlRun unesc ⟨false, false, t0⟩ (blk ++ rest) =
      xmlRun unesc ⟨false, false, t0⟩ rest := by
  induction blk with
  | nil => rfl
  | cons e es ihe =>
    have hne := h e (List.mem_cons_self ..)
    have he1 : e ≠ .eof := by rcases hne with rfl | rfl | ⟨n, -, -, rfl⟩ <;> simp
    have he2 : e ≠ .err := by rcases hne with rfl | rfl | ⟨n, -, -, rfl⟩ <;> simp
    rw [List.cons_append, xmlRun_cons_step unesc _ e _ he1 he2,
      xmlStep_neutral unesc hne t0]
    rw [ihe fun x hx => h x (List.mem_cons_of_mem _ hx)]
    exact map_nil_append _

/-- Processing one well-formed pair from a flags-cleared state emits exactly
its page and leaves the loop flags-cleared with the pair's title captured. -/
theorem xmlRun_pair (unesc : String → String) (t x : String) (t0 : Option String)
    (rest : List XmlEvent) :
    xmlRun unesc ⟨false, false, t0⟩ (pairEvents t x ++ rest) =
      (xmlRun unesc ⟨false, false, some (unesc t)⟩ rest).map
        fun r => XmlOut.page (unesc t) (unesc x) :: r := by
  cases hv : xmlRun unesc ⟨false, false, some (unesc t)⟩ rest with
  | error u => simp [pairEvents, xmlRun, xmlStep, hv, Except.map]
  | ok out => simp [pairEvents, xmlRun, xmlStep, hv, Except.map]

/-- Auxiliary induction for the well-formed pair-sequence theorem,
generalizing over the initially captured title. -/
theorem xmlRun_pairs_aux (unesc : String → String) :
    ∀ (ps : List (List XmlEvent × String × String)),
      (∀ blk ∈ ps, ∀ e ∈ blk.1, Neutral e) → ∀ t0 : Option String,
      xmlRun unesc ⟨false, false, t0⟩
          ((ps.map fun b => b.1 ++ pairEvents b.2.1 b.2.2).flatten ++ [.eof]) =
        .ok (ps.map fun b => XmlOut.page (unesc b.2.1) (unesc b.2.2)) := by
  intro ps
  induction ps with
  | nil => intro h t0; rfl
  | cons b bs ihb =>
    intro h t0
    rw [List.map_cons, List.flatten_cons]
    simp only [List.append_assoc]
    rw [xmlRun_neutral unesc b.1 (h b (List.mem_cons_self ..)) t0]
    rw [xmlRun_pair unesc b.2.1 b.2.2 t0]
    rw [ihb (fun blk hb => h blk (List.mem_cons_of_mem _ hb)) (some (unesc b.2.1))]
    rfl

/-- Running the insert statements appends exactly the inserted edges to the
rows, touching nothing else. -/
theorem runOps_inserts (db : Db) (edges : List (String × String)) :
    runOps db (edges.map fun e => DbOp.insertRow e.1 e.2) =
      { db with rows := db.rows ++ edges } := by
  induction edges generalizing db with
  | nil => simp [runOps]
  | cons e es ihe =>
    rw [List.map_cons]
    show runOps (applyOp db (DbOp.insertRow e.1 e.2)) _ = _
    rw [ihe]
    simp [applyOp]

/-- Any reachable content of a capacity-`cap` flume channel holds at most
`cap` items. -/
theorem queueReachable_length {α : Type} {cap : Nat} {q : List α}
    (h : QueueReachable α cap q) : q.length ≤ cap := by
  induction h with
  | init => simp
  | step hr hs ih =>
    cases hs with
    | send q x hlt => simp only [List.length_append, List.length_cons,
        List.length_nil]; omega
    | recv x q => simp only [List.length_cons] at ih; omega

/-- The extraction loop returns normally on every event stream that contains
no reader error: no event can make it fail. -/
theorem xmlRun_ok_of_no_err (unesc : String → String) :
    ∀ (evs : List XmlEvent) (s : XmlState), XmlEvent.err ∉ evs →
      ∃ out, xmlRun unesc s evs = .ok out := by
  intro evs
  induction evs with
  | nil => exact fun s _ => ⟨[], rfl⟩
  | cons e es ihe =>
    intro s h
    have hes : XmlEvent.err ∉ es := fun hm => h (List.mem_cons_of_mem _ hm)
    cases e with
    | eof => exact ⟨[], rfl⟩
    | err => exact absurd (List.mem_cons_self ..) h
    | start n =>
      obtain ⟨out, hout⟩ := ihe (xmlStep unesc s (XmlEvent.start n)).1 hes
      exact ⟨(xmlStep unesc s (XmlEvent.start n)).2 ++ out, by
        rw [xmlRun_cons_step unesc s _ es (by simp) (by simp), hout]; rfl⟩
    | text c =>
      obtain ⟨out, hout⟩ := ihe (xmlStep unesc s (XmlEvent.text c)).1 hes
      exact ⟨(xmlStep unesc s (XmlEvent.text c)).2 ++ out, by
        rw [xmlRun_cons_step unesc s _ es (by simp) (by simp), hout]; rfl⟩
    | close =>
      obtain ⟨out, hout⟩ := ihe (xmlStep unesc s XmlEvent.close).1 hes
      exact ⟨(xmlStep unesc s XmlEvent.close).2 ++ out, by
        rw [xmlRun_cons_step unesc s _ es (by simp) (by simp), hout]; rfl⟩
    | other =>
      obtain ⟨out, hout⟩ := ihe (xmlStep unesc s XmlEvent.other).1 hes
      exact ⟨(xmlStep unesc s XmlEvent.other).2 ++ out, by
        rw [xmlRun_cons_step unesc s _ es (by simp) (by simp), hout]; rfl⟩

theorem runOps_cons (db : Db) (op : DbOp) (ops : List DbOp) :
    runOps db (op :: ops) = runOps (applyOp db op) ops := rfl

theorem runOps_append (db : Db) (l₁ l₂ : List DbOp) :
    runOps db (l₁ ++ l₂) = runOps (runOps db l₁) l₂ :=
  List.foldl_append ..

/-- Every channel transition either enqueues one item (possible only below
capacity) or dequeues one item. -/
theorem queueStep_length {α : Type} {cap : Nat} {q q' : List α}
    (h : QueueStep α cap q q') :
    (q.length < cap ∧ q'.length = q.length + 1) ∨ q'.length + 1 = q.length := by
  cases h with
  | send q x hlt => exact Or.inl ⟨hlt, by simp⟩
  | recv x q => right; simp

/-! ## Claim theorems -/

/-- C1 (counterexample): the claim says a text element's content arriving
without a previously captured title, or end-of-stream outside `Idle`, makes
extraction fail with `MalformedDocument`.  The code has no such failure: on
`[Start "text", Text "x", Eof]` it prints the diagnostic, continues, and
returns normally (it does not error), and on `[Start "title", Eof]` — an
end-of-stream while committed to a title — it also terminates normally. -/
theorem extraction_no_malformed_failure_counterexample :
    xml_thread id [.start "text", .text "x", .eof] = .ok [XmlOut.diag] ∧
    xml_thread id [.start "text", .text "x", .eof] ≠ Except.error () ∧
    xml_thread id [.start "title", .eof] = .ok [] := by
  refine ⟨rfl, ?_, rfl⟩
  intro hcontra
  exact Except.noConfusion hcontra

/-- C1 (amended): end-of-stream in any state terminates extraction normally;
an event that does not match a transition is ignored; a text run without a
captured title prints a diagnostic and processing continues.  The extraction
loop never fails on any event stream free of reader errors — there is no
`MalformedDocument` outcome. -/
theorem extraction_continues_amended (unesc : String → String) (s : XmlState)
    (evs : List XmlEvent) (h : XmlEvent.err ∉ evs) :
    ∃ out, xmlRun unesc s evs = .ok out :=
  xmlRun_ok_of_no_err unesc evs s h

/-- Witness for C1 (amended) at a concrete err-free stream that ends inside
a title element. -/
theorem extraction_continues_amended_witness :
    XmlEvent.err ∉ [XmlEvent.start "title", XmlEvent.eof] ∧
    ∃ out, xmlRun id initState [XmlEvent.start "title", XmlEvent.eof] = .ok out := by
  have h : XmlEvent.err ∉ [XmlEvent.start "title", XmlEvent.eof] := by simp
  exact ⟨h, extraction_continues_amended id initState _ h⟩

/-- C2: the claim says the pipeline terminates after a finite input is
exhausted, each stage propagating queue closure downstream.  In the code,
`main`'s `thread::scope` keeps the original `regex_tx`, `sqlite_tx` and
`regex_rx` endpoints alive until the scope returns, the scope returns only
after every thread has returned, and each of `regex_thread`,
`sqlite_thread` and `progress_thread` can return only after an endpoint held
by the scope (or by one of the blocked threads) is dropped.  In the least
fixpoint of the exit dependencies, only the xml thread can ever exit: the
pipeline hangs instead of terminating. -/
theorem pipeline_exit_only_xml (p : Proc) (h : Exits p) : p = Proc.xml := by
  induction h <;> simp_all

/-- Witness for C2 at the one thread that does exit. -/
theorem pipeline_exit_only_xml_witness : Exits Proc.xml ∧ Proc.xml = Proc.xml :=
  ⟨Exits.xml, pipeline_exit_only_xml Proc.xml Exits.xml⟩

/-- C3 (counterexample): the claim says the byte-stream source is chosen by
case-insensitive suffix match on the file name.  The code performs no
classification: a file named `dump.xml`, which the spec's rule classifies as
raw markup, is nonetheless wrapped in the multi-stream decompressor. -/
theorem byte_source_selection_counterexample :
    byteSource "dump.xml" = ByteSource.multistreamBz2 ∧
    classifySpec "dump.xml" = ByteSource.raw ∧
    byteSource "dump.xml" ≠ classifySpec "dump.xml" := by
  refine ⟨rfl, rfl, ?_⟩
  decide

/-- C3 (amended): every input file, whatever its name, is decoded through
the multi-stream bz2 decompressor (`MultiBzDecoder`); no suffix
classification happens. -/
theorem byte_source_selection_amended (fileName : String) :
    byteSource fileName = ByteSource.multistreamBz2 := rfl

/-- C4: for every text input, the Link Extractor emits exactly one edge per
non-overlapping occurrence of `[[X]]` or `[[X|Y]]` (X nonempty and
bracket-free, Y bracket-free and discarded), with target exactly `X`, in
left-to-right order, skipping characters only where no occurrence starts
(so unbalanced or empty bracket sequences yield no edge); the stage is a
total function and never fails. -/
theorem link_extractor_spec_decomposition (text : String) :
    ∃ L, extractLinks text = L.map (fun cs => String.mk cs) ∧
      LinksSpec text.data L :=
  ⟨scanLinks text.data, rfl, linksSpec_scanLinks text.data⟩

/-- C5: every sequence of well-formed `title`/`text` element pairs — each
optionally preceded by ignorable (neutral) events — produces exactly one
Page per pair, whose fields are exactly the unescaped element contents. -/
theorem page_extractor_wellformed_pairs (unesc : String → String)
    (ps : List (List XmlEvent × String × String))
    (h : ∀ blk ∈ ps, ∀ e ∈ blk.1, Neutral e) :
    xml_thread unesc
        ((ps.map fun b => b.1 ++ pairEvents b.2.1 b.2.2).flatten ++ [.eof]) =
      .ok (ps.map fun b => XmlOut.page (unesc b.2.1) (unesc b.2.2)) :=
  xmlRun_pairs_aux unesc ps h none

/-- Witness for C5 at one pair preceded by one ignorable event. -/
theorem page_extractor_wellformed_pairs_witness :
    (∀ blk ∈ ([([XmlEvent.other], "T", "B")] : List (List XmlEvent × String × String)),
      ∀ e ∈ blk.1, Neutral e) ∧
    xml_thread id
        ((([([XmlEvent.other], "T", "B")] :
            List (List XmlEvent × String × String)).map
          fun b => b.1 ++ pairEvents b.2.1 b.2.2).flatten ++ [.eof]) =
      .ok (([([XmlEvent.other], "T", "B")] :
          List (List XmlEvent × String × String)).map
        fun b => XmlOut.page (id b.2.1) (id b.2.2)) := by
  have h : ∀ blk ∈ ([([XmlEvent.other], "T", "B")] :
      List (List XmlEvent × String × String)), ∀ e ∈ blk.1, Neutral e := by
    intro blk hb e he
    rw [List.mem_singleton] at hb
    subst hb
    rw [List.mem_singleton] at he
    subst he
    exact Or.inl rfl
  exact ⟨h, page_extractor_wellformed_pairs id _ h⟩

/-- C6 (counterexample): the claim says that when an element's content
arrives as two text runs only the first run is captured and later runs
contribute nothing.  In the code a second run inside a `title` element
overwrites the captured title ("B" wins over "A"), and each run inside a
`text` element emits its own record — so the result is two pages titled "B"
instead of the single first-run page ("A", "X"). -/
theorem multi_text_runs_counterexample :
    xml_thread id [.start "title", .text "A", .other, .text "B", .close,
        .start "text", .text "X", .other, .text "Y", .close, .eof] =
      .ok [XmlOut.page "B" "X", XmlOut.page "B" "Y"] ∧
    xml_thread id [.start "title", .text "A", .other, .text "B", .close,
        .start "text", .text "X", .other, .text "Y", .close, .eof] ≠
      .ok [XmlOut.page "A" "X"] := by
  refine ⟨rfl, ?_⟩
  intro hcontra
  rw [show xml_thread id [.start "title", .text "A", .other, .text "B", .close,
        .start "text", .text "X", .other, .text "Y", .close, .eof] =
      .ok [XmlOut.page "B" "X", XmlOut.page "B" "Y"] from rfl] at hcontra
  simp at hcontra

/-- C6 (amended): because only `End` events clear the flags, every further
text run while `in_title` is still set overwrites the captured title (the
last run wins), and every further text run while `in_text` is set emits its
own additional record; the first run is not privileged. -/
theorem multi_text_runs_amended (unesc : String → String) (s : XmlState)
    (c t : String) :
    (s.in_title = true → (xmlStep unesc s (.text c)).1.title = some (unesc c)) ∧
    (s.in_title = false → s.in_text = true → s.title = some t →
      (xmlStep unesc s (.text c)).2 = [XmlOut.page t (unesc c)]) := by
  constructor
  · intro h1
    simp [xmlStep, h1]
  · intro h1 h2 h3
    simp [xmlStep, h1, h2, h3]

/-- Witness for C6 (amended): a second title run overwrites, a second text
run emits again. -/
theorem multi_text_runs_amended_witness :
    (xmlStep id ⟨true, false, some "A"⟩ (.text "B")).1.title = some "B" ∧
    (xmlStep id ⟨false, true, some "B"⟩ (.text "Y")).2 = [XmlOut.page "B" "Y"] :=
  ⟨(multi_text_runs_amended id ⟨true, false, some "A"⟩ "B" "B").1 rfl,
   (multi_text_runs_amended id ⟨false, true, some "B"⟩ "Y" "B").2 rfl rfl rfl⟩

/-- C7: the Graph Store Sink creates the two-column non-null `vertices`
table, inserts every received edge so that reading the rows back yields
exactly the input stream (order and duplicates preserved, hence the same
multiset), and the index build and the copy to the destination happen only
after the input stream is exhausted: after the inserts alone, neither has
happened yet. -/
theorem graph_store_sink_lifecycle (edges : List (String × String)) :
    (sqlite_thread edges).rows = edges ∧
    (sqlite_thread edges).schema = some verticesSchema ∧
    (sqlite_thread edges).indexBuilt = true ∧
    (sqlite_thread edges).backedUp = true ∧
    (runOps initDb (DbOp.createTable ::
      edges.map fun e => DbOp.insertRow e.1 e.2)).indexBuilt = false ∧
    (runOps initDb (DbOp.createTable ::
      edges.map fun e => DbOp.insertRow e.1 e.2)).backedUp = false := by
  have hmid : runOps initDb (DbOp.createTable ::
      edges.map fun e => DbOp.insertRow e.1 e.2) =
      ⟨some verticesSchema, edges, false, false⟩ := by
    rw [runOps_cons, runOps_inserts]
    rfl
  have hfin : sqlite_thread edges = ⟨some verticesSchema, edges, true, true⟩ := by
    show runOps initDb (sqliteTrace edges) = _
    rw [sqliteTrace, runOps_cons, runOps_append, runOps_inserts]
    rfl
  exact ⟨by rw [hfin], by rw [hfin], by rw [hfin], by rw [hfin],
    by rw [hmid], by rw [hmid]⟩

/-- C8: the number of in-flight items in each hand-off queue never exceeds
its configured bound of 512 (a capacity on the order of hundreds), and a
producer cannot send to a full queue — no send transition exists there, the
producer blocks. -/
theorem bounded_queues_invariant (α : Type) (q₁ q₂ : List α)
    (h₁ : QueueReachable α regexQueueBound q₁)
    (h₂ : QueueReachable α sqliteQueueBound q₂) :
    q₁.length ≤ regexQueueBound ∧ q₂.length ≤ sqliteQueueBound ∧
    (q₁.length = regexQueueBound →
      ∀ x, ¬ QueueStep α regexQueueBound q₁ (q₁ ++ [x])) ∧
    (q₂.length = sqliteQueueBound →
      ∀ x, ¬ QueueStep α sqliteQueueBound q₂ (q₂ ++ [x])) ∧
    100 ≤ regexQueueBound ∧ regexQueueBound ≤ 999 ∧
    100 ≤ sqliteQueueBound ∧ sqliteQueueBound ≤ 999 := by
  refine ⟨queueReachable_length h₁, queueReachable_length h₂, ?_, ?_,
    by decide, by decide, by decide, by decide⟩
  · intro hfull x hstep
    rcases queueStep_length hstep with ⟨hlt, -⟩ | hrec
    · omega
    · simp only [List.length_append, List.length_cons, List.length_nil] at hrec
      omega
  · intro hfull x hstep
    rcases queueStep_length hstep with ⟨hlt, -⟩ | hrec
    · omega
    · simp only [List.length_append, List.length_cons, List.length_nil] at hrec
      omega

/-- Witness for C8 at the empty contents of both queues. -/
theorem bounded_queues_invariant_witness :
    ([] : List Nat).length ≤ regexQueueBound ∧
    ([] : List Nat).length ≤ sqliteQueueBound ∧
    (([] : List Nat).length = regexQueueBound →
      ∀ x, ¬ QueueStep Nat regexQueueBound [] ([] ++ [x])) ∧
    (([] : List Nat).length = sqliteQueueBound →
      ∀ x, ¬ QueueStep Nat sqliteQueueBound [] ([] ++ [x])) ∧
    100 ≤ regexQueueBound ∧ regexQueueBound ≤ 999 ∧
    100 ≤ sqliteQueueBound ∧ sqliteQueueBound ≤ 999 :=
  bounded_queues_invariant Nat [] [] QueueReachable.init QueueReachable.init

/-- C9: on the page titled "Example" with text
"See [[Rust (programming language)|Rust]] and [[WebAssembly]].", the Link
Extractor emits exactly the two expected edges, in that order. -/
theorem concrete_scenario_edges :
    regex_thread
        [("Example", "See [[Rust (programming language)|Rust]] and [[WebAssembly]].")] =
      [("Example", "Rust (programming language)"), ("Example", "WebAssembly")] := rfl

/-- C10: close events never clear the captured title; once a title is
captured the state's title stays captured under every event; a text run in a
text element is emitted with the most recently captured title; and a text
run arriving before any title has been captured emits no record, only the
diagnostic (processing continues). -/
theorem title_never_cleared (unesc : String → String) (s : XmlState)
    (c t : String) (e : XmlEvent) :
    ((xmlStep unesc s .close).1.title = s.title) ∧
    (s.title = some t → ((xmlStep unesc s e).1.title).isSome = true) ∧
    (s.in_title = false → s.in_text = true → s.title = some t →
      (xmlStep unesc s (.text c)).2 = [XmlOut.page t (unesc c)]) ∧
    (s.in_title = false → s.in_text = true → s.title = none →
      (xmlStep unesc s (.text c)).2 = [XmlOut.diag]) := by
  refine ⟨rfl, ?_, ?_, ?_⟩
  · intro h
    cases e with
    | start n =>
      by_cases h1 : n = "title"
      · simp [xmlStep, h1, h]
      · by_cases h2 : n = "text"
        · simp [xmlStep, h1, h2, h]
        · simp [xmlStep, h1, h2, h]
    | text c2 =>
      by_cases h1 : s.in_title
      · simp [xmlStep, h1, h]
      · by_cases h2 : s.in_text
        · simp [xmlStep, h1, h2, h]
        · simp [xmlStep, h1, h2, h]
    | close => simp [xmlStep, h]
    | eof => simp [xmlStep, h]
    | err => simp [xmlStep, h]
    | other => simp [xmlStep, h]
  · intro h1 h2 h3
    simp [xmlStep, h1, h2, h3]
  · intro h1 h2 h3
    simp [xmlStep, h1, h2, h3]

/-- Witness for C10 at a state with a captured title and an open text
element. -/
theorem title_never_cleared_witness :
    (xmlStep id ⟨false, true, some "T"⟩ XmlEvent.close).1.title = some "T" ∧
    (xmlStep id ⟨false, true, some "T"⟩ (.text "x")).2 = [XmlOut.page "T" "x"] ∧
    (xmlStep id ⟨false, true, none⟩ (.text "x")).2 = [XmlOut.diag] :=
  ⟨(title_never_cleared id ⟨false, true, some "T"⟩ "x" "T" XmlEvent.close).1,
   (title_never_cleared id ⟨false, true, some "T"⟩ "x" "T" XmlEvent.close).2.2.1
      rfl rfl rfl,
   (title_never_cleared id ⟨false, true, none⟩ "x" "T" XmlEvent.close).2.2.2
      rfl rfl rfl⟩

end Wikigraph
